import Mathlib

/-!
Verification of the segmentation-and-vectorization engine of
`src/polygonize_indices.py` (PalmTree-Mapping).

The engine is embedded shallowly:

* raster samples are modelled by `FVal` (a rational for a finite float,
  plus NaN and the two infinities, with IEEE comparison semantics);
* a raster / mask is a function `ℤ → ℤ → _` together with explicit
  `rows`/`cols` dimensions; cells outside the grid read as background;
* the morphology of `binary_morphology` (scipy `binary_opening` /
  `binary_closing` with `border_value = 0`) is defined directly on grids;
* connected-component labelling (`scipy.ndimage.label`, default
  cross-shaped structuring element, i.e. 4-connectivity) is defined by
  iterating a neighbour-saturation step `rows*cols` times and proved to
  coincide with reflexive-transitive reachability;
* the external geometry library calls (reprojection, polygon area,
  UTM estimation) are abstracted as function parameters, and a polygon
  is represented by the flat scan-order indices of its region's cells.
-/

namespace PalmTree

/-! ## Float values and IEEE-style comparisons -/

/-- Model of a floating-point raster sample: a finite value (as an exact
rational), NaN, `+inf` or `-inf`. -/
inductive FVal where
  | finite (q : ℚ)
  | nan
  | pinf
  | ninf
deriving DecidableEq, Repr

/-- IEEE-style `x >= lo` against a finite threshold: NaN compares false,
`+inf` is above every finite value, `-inf` below. -/
def FVal.ge (x : FVal) (lo : ℚ) : Bool :=
  match x with
  | .finite q => decide (lo ≤ q)
  | .nan => false
  | .pinf => true
  | .ninf => false

/-- IEEE-style `x <= hi` against a finite threshold. -/
def FVal.le (x : FVal) (hi : ℚ) : Bool :=
  match x with
  | .finite q => decide (q ≤ hi)
  | .nan => false
  | .pinf => false
  | .ninf => true

/-! ## Grids -/

/-- A raster with `rows × cols` cells; values are read through `Raster.at`
so that out-of-grid samples never matter. -/
def Raster : Type := ℤ → ℤ → FVal

/-- A binary mask as a Boolean grid over integer coordinates. -/
def Mask : Type := ℤ → ℤ → Bool

/-- Cell `(r, c)` lies inside a `rows × cols` grid. -/
def inB (rows cols : ℕ) (r c : ℤ) : Bool :=
  decide (0 ≤ r ∧ r < (rows : ℤ) ∧ 0 ≤ c ∧ c < (cols : ℤ))

/-- A mask is clipped when it is background outside the grid (the shape
every mask produced by the code has). -/
def Clipped (rows cols : ℕ) (m : Mask) : Prop :=
  ∀ r c : ℤ, m r c = true → inB rows cols r c = true

/-! ## Mask Builder (line 67) and Multi-Layer Combiner mask (lines 123-125) -/

/-- Threshold mask of one raster layer: cell is 1 iff the sample compares
`>= lo` and `<= hi` under IEEE comparison rules. -/
def maskBuilder (rows cols : ℕ) (arr : Raster) (lo hi : ℚ) : Mask :=
  fun r c => inB rows cols r c && FVal.ge (arr r c) lo && FVal.le (arr r c) hi

/-- The combined intersection mask exactly as `run` writes it: one long
conjunction of the six comparisons over the three index layers. -/
def combinedMask (rows cols : ℕ) (ndvi gndvi evi2 : Raster)
    (nLo nHi gLo gHi eLo eHi : ℚ) : Mask :=
  fun r c =>
    inB rows cols r c &&
      (FVal.ge (ndvi r c) nLo && FVal.le (ndvi r c) nHi &&
       (FVal.ge (gndvi r c) gLo && FVal.le (gndvi r c) gHi) &&
       (FVal.ge (evi2 r c) eLo && FVal.le (evi2 r c) eHi))

/-! ## Morphological Cleaner (`disk`, `binary_morphology`, lines 30-42) -/

/-- Integer offsets of the disk structuring element of radius `rad`
(`disk`, lines 30–33): all `(dx, dy)` with `dx² + dy² ≤ rad²`. -/
def diskOffsets (rad : ℕ) : List (ℤ × ℤ) :=
  ((List.range (2 * rad + 1)).product (List.range (2 * rad + 1))).filterMap
    (fun p =>
      let d : ℤ × ℤ := ((p.1 : ℤ) - (rad : ℤ), (p.2 : ℤ) - (rad : ℤ))
      if d.1 ^ 2 + d.2 ^ 2 ≤ (rad : ℤ) ^ 2 then some d else none)

/-- Binary erosion with border value 0: a cell survives iff the whole disk
around it is foreground (an out-of-grid sample of a clipped mask reads as
background and makes the cell fail, matching scipy's `border_value=0`). -/
def erode (rows cols rad : ℕ) (m : Mask) : Mask :=
  fun r c => inB rows cols r c &&
    (diskOffsets rad).all (fun d => m (r + d.1) (c + d.2))

/-- Binary dilation with border value 0, computed on the grid. -/
def dilate (rows cols rad : ℕ) (m : Mask) : Mask :=
  fun r c => inB rows cols r c &&
    (diskOffsets rad).any (fun d => m (r + d.1) (c + d.2))

/-- Opening step of `binary_morphology` (lines 38–39): erosion followed by
dilation with the radius-`rad` disk, skipped when `rad = 0`. -/
def applyOpen (rows cols rad : ℕ) (m : Mask) : Mask :=
  if 0 < rad then dilate rows cols rad (erode rows cols rad m) else m

/-- Closing step of `binary_morphology` (lines 40–41): dilation followed by
erosion with the radius-`rad` disk, skipped when `rad = 0`. -/
def applyClose (rows cols rad : ℕ) (m : Mask) : Mask :=
  if 0 < rad then erode rows cols rad (dilate rows cols rad m) else m

/-- `binary_morphology` (lines 36–42): opening with the `openRad` disk,
then closing with the `closeRad` disk; a zero radius skips that step. -/
def binaryMorphology (rows cols openRad closeRad : ℕ) (m : Mask) : Mask :=
  applyClose rows cols closeRad (applyOpen rows cols openRad m)

/-- Plus-shaped test mask on a 3 × 3 grid: the centre cell and its four
edge neighbours. -/
def crossMask : Mask := fun r c =>
  decide ((r = 0 ∧ c = 1) ∨ (r = 1 ∧ c = 0) ∨ (r = 1 ∧ c = 1) ∨
    (r = 1 ∧ c = 2) ∨ (r = 2 ∧ c = 1))

/-! ## Region Labeler (`ndi.label` with its default 4-connectivity, lines 70 and 128) -/

/-- Cells of a `rows × cols` grid, as a finite type. -/
abbrev Cell (rows cols : ℕ) : Type := Fin rows × Fin cols

/-- Row-major scan index of a cell. -/
def cellIdx {rows cols : ℕ} (v : Cell rows cols) : ℕ :=
  (finProdFinEquiv v : Fin (rows * cols)).val

/-- 4-adjacency of two grid cells: same row and adjacent columns, or same
column and adjacent rows. -/
def adj4 {rows cols : ℕ} (u w : Cell rows cols) : Bool :=
  decide ((u.1 = w.1 ∧ (u.2.val + 1 = w.2.val ∨ w.2.val + 1 = u.2.val)) ∨
    (u.2 = w.2 ∧ (u.1.val + 1 = w.1.val ∨ w.1.val + 1 = u.1.val)))

/-- Adjacency inside the foreground: both cells are 1-valued and
4-adjacent. -/
def adjB {rows cols : ℕ} (p : Cell rows cols → Bool) (u w : Cell rows cols) :
    Bool :=
  p u && p w && adj4 u w

/-- Two cells are in the same region when a chain of foreground
4-adjacencies links them. -/
def Connected {rows cols : ℕ} (p : Cell rows cols → Bool)
    (u v : Cell rows cols) : Prop :=
  Relation.ReflTransGen (fun a b => adjB p a b = true) u v

/-- One saturation step: add every foreground neighbour of the set. -/
def stepSet {rows cols : ℕ} (p : Cell rows cols → Bool)
    (s : Finset (Cell rows cols)) : Finset (Cell rows cols) :=
  s ∪ s.biUnion (fun u => Finset.univ.filter (fun w => adjB p u w = true))

/-- Saturation step iterated `n` times from a seed set. -/
def iterStep {rows cols : ℕ} (p : Cell rows cols → Bool) :
    ℕ → Finset (Cell rows cols) → Finset (Cell rows cols)
  | 0, s => s
  | n + 1, s => stepSet p (iterStep p n s)

/-- The cells reachable from `v` inside the foreground: `rows * cols`
saturation steps from `{v}`, enough to reach a fixpoint. -/
def reachSet {rows cols : ℕ} (p : Cell rows cols → Bool)
    (v : Cell rows cols) : Finset (Cell rows cols) :=
  iterStep p (rows * cols) {v}

/-- Scan index of the first cell (row-major) of `v`'s region — the
component representative that fixes the region's label rank. -/
def repIdx {rows cols : ℕ} (p : Cell rows cols → Bool) (v : Cell rows cols) :
    ℕ :=
  (((reachSet p v).image cellIdx).min).untop' 0

/-- The scan indices of all region representatives of the mask. -/
def repsFinset {rows cols : ℕ} (p : Cell rows cols → Bool) : Finset ℕ :=
  (Finset.univ.filter (fun v => p v = true)).image (repIdx p)

/-- Number of regions `ndi.label` finds (its second return value `n`). -/
def nLabels {rows cols : ℕ} (p : Cell rows cols → Bool) : ℕ :=
  (repsFinset p).card

/-- Label array `ndi.label` produces: 0 on background cells; on a
foreground cell, 1 plus the number of regions whose first scan-order cell
comes strictly earlier. -/
def labelOf {rows cols : ℕ} (p : Cell rows cols → Bool) (v : Cell rows cols) :
    ℕ :=
  if p v = true then
    1 + ((repsFinset p).filter (fun x => x < repIdx p v)).card
  else 0

/-- Region of label `i` as the loop on lines 75–78 sees it
(`region = (labeled == i)`), measured by `region.sum()`. -/
def regionCard {rows cols : ℕ} (p : Cell rows cols → Bool) (i : ℕ) : ℕ :=
  (Finset.univ.filter (fun u => labelOf p u = i)).card

/-! ## Region Size Filter (lines 71-78 and 129-135) -/

/-- The six affine-transform coefficients of the raster metadata. -/
structure Affine where
  a : ℚ
  b : ℚ
  c : ℚ
  d : ℚ
  e : ℚ
  f : ℚ
deriving DecidableEq, Repr

/-- Pixel area of one grid cell (line 71): `abs(transform.a) *
abs(transform.e)`. -/
def pixelArea (t : Affine) : ℚ := |t.a| * |t.e|

/-- Python's `int()` on a rational: truncation toward zero. -/
def pyInt (q : ℚ) : ℤ := if 0 ≤ q then Int.floor q else Int.ceil q

/-- Minimum pixel count as the code derives it (line 72):
`int(min_area_ha * 10000 / pixel_area_m2)` — truncation. -/
def minPixels (t : Affine) (minAreaHa : ℚ) : ℤ :=
  pyInt (minAreaHa * 10000 / pixelArea t)

/-- Minimum pixel count as the spec words it:
`ceil(min_area_ha * 10000 / pixel_area_m2)`. Stated only to compare with
`minPixels`. -/
def minPixelsCeil (t : Affine) (minAreaHa : ℚ) : ℤ :=
  Int.ceil (minAreaHa * 10000 / pixelArea t)

/-- The size-filtered mask built by the loop on lines 74–78: a cell ends
up 1 iff its label is one of `1..n` and that label's region has at least
`minPix` pixels. -/
def sizeFilter {rows cols : ℕ} (p : Cell rows cols → Bool) (minPix : ℤ) :
    Cell rows cols → Bool :=
  fun v =>
    decide (1 ≤ labelOf p v) && decide (labelOf p v ≤ nLabels p) &&
      decide (minPix ≤ (regionCard p (labelOf p v) : ℤ))

/-- Two diagonally-touching foreground pixels on a 2 × 2 grid. -/
def diagMask : Cell 2 2 → Bool := fun v =>
  decide ((v.1.val = 0 ∧ v.2.val = 0) ∨ (v.1.val = 1 ∧ v.2.val = 1))

/-- Transform with 10 m × 10 m pixels (`e` negative as in north-up
rasters): pixel area 100 m². -/
def tEx : Affine := ⟨10, 0, 0, 0, -10, 0⟩

/-- All-foreground 1 × 5 mask: one region of exactly 5 pixels. -/
def rowMask : Cell 1 5 → Bool := fun _ => true

/-! ## Vectorizer, Area Calculator and pipeline (lines 45-92, 123-142) -/

/-- Abstract polygon geometry: identified by the scan-order indices of
the region's cells; boundary tracing in world coordinates is the
external library's concern. -/
abbrev Geom : Type := List ℕ

/-- Model of a GeoDataFrame as the engine uses one: geometry column,
optional `area_ha` column, and a CRS identifier. -/
structure GeoDF where
  geoms : List Geom
  areaHa : Option (List ℚ)
  crs : ℕ
deriving DecidableEq, Repr

/-- External geospatial library operations, abstracted:
`isGeo` models `CRS(crs).is_geographic`, `estUtm` models
`gdf.estimate_utm_crs()`, `toCrs c g` models reprojecting geometry `g`
to CRS `c`, and `areaOf c g` models `geometry.area` of `g` read in
CRS `c`. -/
structure GeoLib where
  isGeo : ℕ → Bool
  estUtm : GeoDF → ℕ
  toCrs : ℕ → Geom → Geom
  areaOf : ℕ → Geom → ℚ

/-- View of a `Mask` restricted to the grid's cells. -/
def maskOn (rows cols : ℕ) (m : Mask) : Cell rows cols → Bool :=
  fun v => m (v.1.val : ℤ) (v.2.val : ℤ)

/-- Region representatives in row-major order (every representative is a
scan index, so filtering `0, 1, ..., rows*cols - 1` lists them in
ascending order). -/
def repsSorted {rows cols : ℕ} (p : Cell rows cols → Bool) : List ℕ :=
  (List.range (rows * cols)).filter (fun i => decide (i ∈ repsFinset p))

/-- The geometry of the region whose representative is `rep`: its cells'
scan indices in ascending order. -/
def componentCells {rows cols : ℕ} (p : Cell rows cols → Bool) (rep : ℕ) :
    Geom :=
  (List.range (rows * cols)).filter
    (fun i => decide (i ∈ (Finset.univ.filter
      (fun u => p u = true ∧ repIdx p u = rep)).image cellIdx))

/-- `raster_to_polygons` (lines 45–50): one polygon per connected region
of 1-valued cells, and an empty GeoDataFrame carrying the metadata's CRS
when there is no foreground. -/
def rasterToPolygons {rows cols : ℕ} (p : Cell rows cols → Bool) (crs : ℕ) :
    GeoDF :=
  { geoms := (repsSorted p).map (componentCells p), areaHa := none,
    crs := crs }

/-- `compute_area_ha` (lines 53–63): an empty frame just gains an empty
`area_ha` column; otherwise, when the CRS is geographic a working copy of
the geometries is reprojected to the estimated UTM zone and each area is
the (projected) polygon area divided by 10000 — the frame keeps its
original geometries and CRS either way. -/
def computeAreaHa (L : GeoLib) (gdf : GeoDF) : GeoDF :=
  if gdf.geoms.isEmpty then { gdf with areaHa := some [] }
  else if L.isGeo gdf.crs then
    let utm := L.estUtm gdf
    let wk := gdf.geoms.map (L.toCrs utm)
    { gdf with areaHa := some (wk.map (fun g => L.areaOf utm g / 10000)) }
  else
    { gdf with areaHa := some (gdf.geoms.map (fun g => L.areaOf gdf.crs g / 10000)) }

/-- The area-range filter (lines 82 and 139):
`gdf[(gdf["area_ha"] >= min_area_ha) & (gdf["area_ha"] <= max_area_ha)]`. -/
def areaFilter (gdf : GeoDF) (minA maxA : ℚ) : GeoDF :=
  match gdf.areaHa with
  | none => gdf
  | some al =>
      let kept := (gdf.geoms.zip al).filter
        (fun ga => decide (minA ≤ ga.2) && decide (ga.2 ≤ maxA))
      { geoms := kept.map Prod.fst, areaHa := some (kept.map Prod.snd),
        crs := gdf.crs }

/-- The steps `process_index_to_vectors` applies after building the
threshold mask (lines 68–85), repeated verbatim by `run` for the combined
mask (lines 126–142): morphology, region size filter, polygonization,
area computation, area-range filter, then `None` as the empty-result
sentinel (line 85 / line 142's early return). -/
def pipelineFromMask (rows cols : ℕ) (m : Mask) (t : Affine) (crs : ℕ)
    (openRad closeRad : ℕ) (minAreaHa maxAreaHa : ℚ) (L : GeoLib) :
    Option GeoDF :=
  let cleaned := binaryMorphology rows cols openRad closeRad m
  let filt := sizeFilter (maskOn rows cols cleaned) (minPixels t minAreaHa)
  let gdf := areaFilter (computeAreaHa L (rasterToPolygons filt crs))
    minAreaHa maxAreaHa
  if gdf.geoms.isEmpty then none else some gdf

/-- `process_index_to_vectors` (lines 66–92), with the file-writing side
effects outside the model: thresholds the layer and runs the shared
pipeline. -/
def processIndex (rows cols : ℕ) (arr : Raster) (lo hi : ℚ) (t : Affine)
    (crs : ℕ) (openRad closeRad : ℕ) (minAreaHa maxAreaHa : ℚ) (L : GeoLib) :
    Option GeoDF :=
  pipelineFromMask rows cols (maskBuilder rows cols arr lo hi) t crs
    openRad closeRad minAreaHa maxAreaHa L

/-- Combined-intersection path of `run` (lines 123–142): the AND mask of
the three layers fed to the same pipeline. -/
def processCombined (rows cols : ℕ) (ndvi gndvi evi2 : Raster)
    (nLo nHi gLo gHi eLo eHi : ℚ) (t : Affine) (crs : ℕ)
    (openRad closeRad : ℕ) (minAreaHa maxAreaHa : ℚ) (L : GeoLib) :
    Option GeoDF :=
  pipelineFromMask rows cols
    (combinedMask rows cols ndvi gndvi evi2 nLo nHi gLo gHi eLo eHi) t crs
    openRad closeRad minAreaHa maxAreaHa L

/-! ## Concrete instances used by counterexamples and witnesses -/

/-- Transform with 100 m × 100 m pixels: pixel area 10000 m² = 1 ha. -/
def tBig : Affine := ⟨100, 0, 0, 0, -100, 0⟩

/-- Single foreground cell at the origin. -/
def oneCellMask : Mask := fun r c => decide (r = 0 ∧ c = 0)

/-- External library stub over a projected CRS: every polygon's area is
10000 m² (1 ha). -/
def constLib : GeoLib :=
  ⟨fun _ => false, fun _ => 32633, fun _ g => g, fun _ _ => 10000⟩

/-- External library stub over a geographic CRS whose reprojection
visibly rewrites geometries. -/
def geoLib : GeoLib :=
  ⟨fun _ => true, fun _ => 32633, fun _ g => 7 :: g, fun _ _ => 55⟩

/-! ## Theorems -/

theorem maskBuilder_clipped (rows cols : ℕ) (arr : Raster) (lo hi : ℚ) :
    Clipped rows cols (maskBuilder rows cols arr lo hi) := by
  intro r c h
  unfold maskBuilder at h
  simp only [Bool.and_eq_true] at h
  exact h.1.1

/-- C4 (confirmed): for every in-grid cell, the Mask Builder yields 1 iff
the sample is a finite value `q` with `lo ≤ q ≤ hi` (inclusive at both
endpoints); every non-finite sample (NaN, `+inf`, `-inf`) yields 0. -/
theorem C4_mask_builder_threshold (rows cols : ℕ) (arr : Raster)
    (lo hi : ℚ) (r c : ℤ) (hin : inB rows cols r c = true) :
    (maskBuilder rows cols arr lo hi r c = true ↔
      ∃ q : ℚ, arr r c = FVal.finite q ∧ lo ≤ q ∧ q ≤ hi) ∧
    ((arr r c = FVal.nan ∨ arr r c = FVal.pinf ∨ arr r c = FVal.ninf) →
      maskBuilder rows cols arr lo hi r c = false) := by
  constructor
  · unfold maskBuilder
    rw [hin]
    cases h : arr r c with
    | finite q =>
        simp [FVal.ge, FVal.le]
    | nan => simp [FVal.ge]
    | pinf => simp [FVal.ge, FVal.le]
    | ninf => simp [FVal.ge, FVal.le]
  · intro h
    unfold maskBuilder
    rcases h with h | h | h <;> rw [h] <;> simp [FVal.ge, FVal.le]

/-- Witness for `C4_mask_builder_threshold` at a concrete in-grid cell. -/
theorem C4_mask_builder_threshold_witness :
    inB 2 2 0 1 = true ∧
    ((maskBuilder 2 2 (fun _ _ => FVal.finite (1/2)) 0 1 0 1 = true ↔
      ∃ q : ℚ, (fun _ _ => FVal.finite (1/2) : Raster) 0 1 = FVal.finite q ∧
        0 ≤ q ∧ q ≤ 1) ∧
     (((fun _ _ => FVal.finite (1/2) : Raster) 0 1 = FVal.nan ∨
       (fun _ _ => FVal.finite (1/2) : Raster) 0 1 = FVal.pinf ∨
       (fun _ _ => FVal.finite (1/2) : Raster) 0 1 = FVal.ninf) →
      maskBuilder 2 2 (fun _ _ => FVal.finite (1/2)) 0 1 0 1 = false)) :=
  ⟨by decide,
   C4_mask_builder_threshold 2 2 (fun _ _ => FVal.finite (1/2)) 0 1 0 1
     (by decide)⟩

/-- C5 (confirmed): the combined mask `run` builds before morphology is,
cell for cell, the logical AND of the three per-layer masks the Mask
Builder produces. -/
theorem C5_combined_is_and_of_masks (rows cols : ℕ)
    (ndvi gndvi evi2 : Raster) (nLo nHi gLo gHi eLo eHi : ℚ) (r c : ℤ) :
    combinedMask rows cols ndvi gndvi evi2 nLo nHi gLo gHi eLo eHi r c =
      (maskBuilder rows cols ndvi nLo nHi r c &&
       maskBuilder rows cols gndvi gLo gHi r c &&
       maskBuilder rows cols evi2 eLo eHi r c) := by
  unfold combinedMask maskBuilder
  cases h : inB rows cols r c <;> simp

theorem mem_diskOffsets (rad : ℕ) (d : ℤ × ℤ) :
    d ∈ diskOffsets rad ↔ d.1 ^ 2 + d.2 ^ 2 ≤ (rad : ℤ) ^ 2 := by
  unfold diskOffsets
  rw [List.mem_filterMap]
  constructor
  · rintro ⟨p, _, hp⟩
    dsimp only at hp
    split at hp
    · rename_i hle
      cases hp
      exact hle
    · cases hp
  · intro hle
    have h1 : d.1 ^ 2 ≤ (rad : ℤ) ^ 2 := by nlinarith [sq_nonneg d.2]
    have h2 : d.2 ^ 2 ≤ (rad : ℤ) ^ 2 := by nlinarith [sq_nonneg d.1]
    have b1lo : -(rad : ℤ) ≤ d.1 := by nlinarith
    have b1hi : d.1 ≤ (rad : ℤ) := by nlinarith
    have b2lo : -(rad : ℤ) ≤ d.2 := by nlinarith
    have b2hi : d.2 ≤ (rad : ℤ) := by nlinarith
    refine ⟨((d.1 + rad).toNat, (d.2 + rad).toNat), ?_, ?_⟩
    · rw [List.pair_mem_product, List.mem_range, List.mem_range]
      omega
    · have e1 : (((d.1 + (rad : ℤ)).toNat : ℤ)) - (rad : ℤ) = d.1 := by omega
      have e2 : (((d.2 + (rad : ℤ)).toNat : ℤ)) - (rad : ℤ) = d.2 := by omega
      simp only [e1, e2]
      rw [if_pos hle]

theorem neg_mem_diskOffsets (rad : ℕ) (d : ℤ × ℤ) (h : d ∈ diskOffsets rad) :
    (-d.1, -d.2) ∈ diskOffsets rad := by
  rw [mem_diskOffsets] at h ⊢
  simpa using h

theorem zero_mem_diskOffsets (rad : ℕ) : ((0, 0) : ℤ × ℤ) ∈ diskOffsets rad := by
  rw [mem_diskOffsets]
  positivity

theorem erode_clipped (rows cols rad : ℕ) (m : Mask) :
    Clipped rows cols (erode rows cols rad m) := by
  intro r c h
  unfold erode at h
  exact (Bool.and_eq_true _ _ |>.mp h).1

theorem dilate_clipped (rows cols rad : ℕ) (m : Mask) :
    Clipped rows cols (dilate rows cols rad m) := by
  intro r c h
  unfold dilate at h
  exact (Bool.and_eq_true _ _ |>.mp h).1

theorem erode_mono (rows cols rad : ℕ) (m m' : Mask)
    (h : ∀ r c, m r c = true → m' r c = true) :
    ∀ r c, erode rows cols rad m r c = true →
      erode rows cols rad m' r c = true := by
  intro r c he
  unfold erode at he ⊢
  rw [Bool.and_eq_true] at he ⊢
  refine ⟨he.1, ?_⟩
  rw [List.all_eq_true] at he ⊢
  intro d hd
  exact h _ _ (he.2 d hd)

/-- Opening is anti-extensive: dilating an erosion never leaves the mask. -/
theorem dilate_erode_le (rows cols rad : ℕ) (m : Mask) :
    ∀ r c, dilate rows cols rad (erode rows cols rad m) r c = true →
      m r c = true := by
  intro r c h
  unfold dilate at h
  rw [Bool.and_eq_true, List.any_eq_true] at h
  obtain ⟨_, ⟨d, hd, hed⟩⟩ := h
  unfold erode at hed
  rw [Bool.and_eq_true, List.all_eq_true] at hed
  have := hed.2 (-d.1, -d.2) (neg_mem_diskOffsets rad d hd)
  simpa using this

/-- Core stabilisation fact: eroding, dilating and eroding again a clipped
mask is just eroding it once. -/
theorem erode_dilate_erode (rows cols rad : ℕ) (m : Mask)
    (hm : Clipped rows cols m) :
    ∀ r c,
      erode rows cols rad (dilate rows cols rad (erode rows cols rad m)) r c =
        erode rows cols rad m r c := by
  intro r c
  by_cases he : erode rows cols rad m r c = true
  · rw [he]
    unfold erode at he ⊢
    rw [Bool.and_eq_true, List.all_eq_true] at he
    rw [Bool.and_eq_true, List.all_eq_true]
    refine ⟨he.1, ?_⟩
    intro d hd
    unfold dilate
    rw [Bool.and_eq_true, List.any_eq_true]
    constructor
    · exact hm _ _ (he.2 d hd)
    · refine ⟨(-d.1, -d.2), neg_mem_diskOffsets rad d hd, ?_⟩
      dsimp only
      rw [Bool.and_eq_true, List.all_eq_true]
      refine ⟨?_, ?_⟩
      · have : r + d.1 + -d.1 = r := by ring
        have that : c + d.2 + -d.2 = c := by ring
        rw [this, that]
        exact he.1
      · intro d' hd'
        have e1 : r + d.1 + -d.1 + d'.1 = r + d'.1 := by ring
        have e2 : c + d.2 + -d.2 + d'.2 = c + d'.2 := by ring
        rw [e1, e2]
        exact he.2 d' hd'
  · rw [Bool.not_eq_true] at he
    rw [he, Bool.eq_false_iff]
    intro hcon
    have hmono := erode_mono rows cols rad
      (dilate rows cols rad (erode rows cols rad m)) m
      (dilate_erode_le rows cols rad m) r c hcon
    rw [he] at hmono
    exact Bool.false_ne_true hmono

theorem applyOpen_idem (rows cols rad : ℕ) (m : Mask)
    (hm : Clipped rows cols m) :
    applyOpen rows cols rad (applyOpen rows cols rad m) =
      applyOpen rows cols rad m := by
  unfold applyOpen
  by_cases h : 0 < rad
  · rw [if_pos h, if_pos h]
    have key : erode rows cols rad
        (dilate rows cols rad (erode rows cols rad m)) =
        erode rows cols rad m :=
      funext fun r => funext fun c => erode_dilate_erode rows cols rad m hm r c
    rw [key]
  · rw [if_neg h, if_neg h]

theorem applyClose_idem (rows cols rad : ℕ) (m : Mask) :
    applyClose rows cols rad (applyClose rows cols rad m) =
      applyClose rows cols rad m := by
  unfold applyClose
  by_cases h : 0 < rad
  · rw [if_pos h, if_pos h]
    have key : erode rows cols rad
        (dilate rows cols rad (erode rows cols rad (dilate rows cols rad m))) =
        erode rows cols rad (dilate rows cols rad m) :=
      funext fun r => funext fun c =>
        erode_dilate_erode rows cols rad (dilate rows cols rad m)
          (dilate_clipped rows cols rad m) r c
    rw [key]
  · rw [if_neg h, if_neg h]

theorem applyOpen_clipped (rows cols rad : ℕ) (m : Mask)
    (hm : Clipped rows cols m) :
    Clipped rows cols (applyOpen rows cols rad m) := by
  unfold applyOpen
  by_cases h : 0 < rad
  · rw [if_pos h]
    exact dilate_clipped rows cols rad _
  · rw [if_neg h]
    exact hm

theorem crossMask_clipped : Clipped 3 3 crossMask := by
  intro r c h
  unfold crossMask at h
  rw [decide_eq_true_eq] at h
  rcases h with ⟨h1, h2⟩ | ⟨h1, h2⟩ | ⟨h1, h2⟩ | ⟨h1, h2⟩ | ⟨h1, h2⟩ <;>
    subst h1 <;> subst h2 <;> decide

/-- C8 counterexample: on a 3 × 3 grid with the plus-shaped mask and
open and close radii both 1, one application of the Morphological Cleaner
keeps the centre cell but a second application erases it (closing with
scipy's zero border value erodes at the grid boundary), so applying the
Cleaner twice does not equal applying it once. -/
theorem C8_counterexample :
    binaryMorphology 3 3 1 1 crossMask 1 1 = true ∧
      binaryMorphology 3 3 1 1 (binaryMorphology 3 3 1 1 crossMask) 1 1 =
        false := by
  constructor <;> decide

/-- C8 (amended): the Cleaner is idempotent whenever one of the two steps
is skipped — with `closeRad = 0` (pure opening) or `openRad = 0` (pure
closing), applying it twice with the same radii equals applying it once on
any clipped mask; with both radii positive a second application can change
the mask near the grid border. -/
theorem C8_morphology_idempotent_one_step (rows cols openRad closeRad : ℕ)
    (m : Mask) (hm : Clipped rows cols m)
    (h0 : openRad = 0 ∨ closeRad = 0) :
    binaryMorphology rows cols openRad closeRad
        (binaryMorphology rows cols openRad closeRad m) =
      binaryMorphology rows cols openRad closeRad m := by
  rcases h0 with h0 | h0 <;> subst h0
  · unfold binaryMorphology
    have hid : ∀ x : Mask, applyOpen rows cols 0 x = x := fun x => rfl
    rw [hid, hid]
    exact applyClose_idem rows cols closeRad m
  · unfold binaryMorphology
    have hid : ∀ x : Mask, applyClose rows cols 0 x = x := fun x => rfl
    rw [hid, hid]
    exact applyOpen_idem rows cols openRad m hm

/-- Witness for `C8_morphology_idempotent_one_step`: pure closing with
radius 1 on the plus-shaped 3 × 3 mask. -/
theorem C8_morphology_idempotent_one_step_witness :
    Clipped 3 3 crossMask ∧
      binaryMorphology 3 3 0 1 (binaryMorphology 3 3 0 1 crossMask) =
        binaryMorphology 3 3 0 1 crossMask :=
  ⟨crossMask_clipped,
   C8_morphology_idempotent_one_step 3 3 0 1 crossMask crossMask_clipped
     (Or.inl rfl)⟩

theorem cellIdx_injective {rows cols : ℕ} (u v : Cell rows cols)
    (h : cellIdx u = cellIdx v) : u = v :=
  finProdFinEquiv.injective (Fin.val_injective h)

theorem adjB_symm {rows cols : ℕ} (p : Cell rows cols → Bool)
    (u w : Cell rows cols) (h : adjB p u w = true) : adjB p w u = true := by
  simp only [adjB, adj4, Bool.and_eq_true, decide_eq_true_eq] at h ⊢
  obtain ⟨⟨hu, hw⟩, hadj⟩ := h
  refine ⟨⟨hw, hu⟩, ?_⟩
  rcases hadj with ⟨he, ho⟩ | ⟨he, ho⟩
  · exact Or.inl ⟨he.symm, ho.symm⟩
  · exact Or.inr ⟨he.symm, ho.symm⟩

theorem connected_symm {rows cols : ℕ} (p : Cell rows cols → Bool)
    {u v : Cell rows cols} (h : Connected p u v) : Connected p v u :=
  Relation.ReflTransGen.symmetric (fun _ _ hab => adjB_symm p _ _ hab) h

theorem p_of_connected {rows cols : ℕ} (p : Cell rows cols → Bool)
    {u v : Cell rows cols} (h : Connected p u v) (hu : p u = true) :
    p v = true := by
  induction h with
  | refl => exact hu
  | tail _ hstep _ =>
      simp only [adjB, Bool.and_eq_true] at hstep
      exact hstep.1.2

theorem mem_stepSet {rows cols : ℕ} (p : Cell rows cols → Bool)
    (s : Finset (Cell rows cols)) (w : Cell rows cols) :
    w ∈ stepSet p s ↔ w ∈ s ∨ ∃ u ∈ s, adjB p u w = true := by
  unfold stepSet
  simp [Finset.mem_union, Finset.mem_biUnion, Finset.mem_filter]

theorem subset_stepSet {rows cols : ℕ} (p : Cell rows cols → Bool)
    (s : Finset (Cell rows cols)) : s ⊆ stepSet p s :=
  Finset.subset_union_left

theorem iterStep_subset_succ {rows cols : ℕ} (p : Cell rows cols → Bool)
    (n : ℕ) (s : Finset (Cell rows cols)) :
    iterStep p n s ⊆ iterStep p (n + 1) s :=
  subset_stepSet p (iterStep p n s)

theorem iterStep_mono_fuel {rows cols : ℕ} (p : Cell rows cols → Bool)
    (s : Finset (Cell rows cols)) {n m : ℕ} (h : n ≤ m) :
    iterStep p n s ⊆ iterStep p m s := by
  induction m with
  | zero =>
      have : n = 0 := Nat.le_zero.mp h
      subst this
      exact Finset.Subset.refl _
  | succ m ih =>
      rcases Nat.lt_or_ge n (m + 1) with hlt | hge
      · exact (ih (Nat.lt_succ_iff.mp hlt)).trans
          (iterStep_subset_succ p m s)
      · have : n = m + 1 := Nat.le_antisymm h hge
        subst this
        exact Finset.Subset.refl _

theorem self_mem_reachSet {rows cols : ℕ} (p : Cell rows cols → Bool)
    (v : Cell rows cols) : v ∈ reachSet p v := by
  have h0 : v ∈ iterStep p 0 {v} := Finset.mem_singleton_self v
  exact iterStep_mono_fuel p {v} (Nat.zero_le _) h0

theorem connected_of_mem_iterStep {rows cols : ℕ} (p : Cell rows cols → Bool)
    (v : Cell rows cols) :
    ∀ n u, u ∈ iterStep p n {v} → Connected p v u := by
  intro n
  induction n with
  | zero =>
      intro u hu
      have : u = v := Finset.mem_singleton.mp hu
      subst this
      exact Relation.ReflTransGen.refl
  | succ n ih =>
      intro u hu
      rw [show iterStep p (n + 1) {v} = stepSet p (iterStep p n {v}) from rfl,
        mem_stepSet] at hu
      rcases hu with hu | ⟨w, hw, hadj⟩
      · exact ih u hu
      · exact Relation.ReflTransGen.tail (ih w hw) hadj

theorem iterStep_stab {rows cols : ℕ} (p : Cell rows cols → Bool)
    (s : Finset (Cell rows cols)) (n : ℕ)
    (h : iterStep p (n + 1) s = iterStep p n s) :
    ∀ m, n ≤ m → iterStep p m s = iterStep p n s := by
  intro m hm
  induction m, hm using Nat.le_induction with
  | base => rfl
  | succ m _ ih =>
      calc iterStep p (m + 1) s = stepSet p (iterStep p m s) := rfl
        _ = stepSet p (iterStep p n s) := by rw [ih]
        _ = iterStep p (n + 1) s := rfl
        _ = iterStep p n s := h

theorem iterStep_growth {rows cols : ℕ} (p : Cell rows cols → Bool)
    (v : Cell rows cols) :
    ∀ n, iterStep p (n + 1) {v} = iterStep p n {v} ∨
      n + 2 ≤ (iterStep p (n + 1) {v}).card := by
  intro n
  induction n with
  | zero =>
      by_cases h : iterStep p (0 + 1) {v} = iterStep p 0 {v}
      · exact Or.inl h
      · refine Or.inr ?_
        have hss : iterStep p 0 {v} ⊂ iterStep p (0 + 1) {v} :=
          (iterStep_subset_succ p 0 {v}).ssubset_of_ne (Ne.symm h)
        have := Finset.card_lt_card hss
        have hcard0 : (iterStep p 0 {v}).card = 1 := Finset.card_singleton v
        omega
  | succ n ih =>
      by_cases h : iterStep p (n + 1 + 1) {v} = iterStep p (n + 1) {v}
      · exact Or.inl h
      · refine Or.inr ?_
        have hss : iterStep p (n + 1) {v} ⊂ iterStep p (n + 1 + 1) {v} :=
          (iterStep_subset_succ p (n + 1) {v}).ssubset_of_ne (Ne.symm h)
        have hlt := Finset.card_lt_card hss
        rcases ih with heq | hcard
        · exfalso
          apply h
          calc iterStep p (n + 1 + 1) {v}
              = stepSet p (iterStep p (n + 1) {v}) := rfl
            _ = stepSet p (iterStep p n {v}) := by rw [heq]
            _ = iterStep p (n + 1) {v} := rfl
        · omega

theorem stepSet_reachSet {rows cols : ℕ} (p : Cell rows cols → Bool)
    (v : Cell rows cols) : stepSet p (reachSet p v) = reachSet p v := by
  unfold reachSet
  rcases iterStep_growth p v (rows * cols) with heq | hcard
  · exact heq
  · exfalso
    have h1 : (iterStep p (rows * cols + 1) {v}).card ≤
        Fintype.card (Cell rows cols) :=
      Finset.card_le_univ _
    have h2 : Fintype.card (Cell rows cols) = rows * cols := by
      simp [Fintype.card_prod]
    omega

theorem mem_reachSet_of_connected {rows cols : ℕ} (p : Cell rows cols → Bool)
    {v u : Cell rows cols} (h : Connected p v u) : u ∈ reachSet p v := by
  induction h with
  | refl => exact self_mem_reachSet p v
  | tail _ hstep ih =>
      rw [← stepSet_reachSet p v, mem_stepSet]
      exact Or.inr ⟨_, ih, hstep⟩

theorem mem_reachSet_iff {rows cols : ℕ} (p : Cell rows cols → Bool)
    (v u : Cell rows cols) : u ∈ reachSet p v ↔ Connected p v u :=
  ⟨connected_of_mem_iterStep p v (rows * cols) u, mem_reachSet_of_connected p⟩

theorem reachSet_nonempty_image {rows cols : ℕ} (p : Cell rows cols → Bool)
    (v : Cell rows cols) : ((reachSet p v).image cellIdx).Nonempty :=
  ⟨cellIdx v, Finset.mem_image_of_mem cellIdx (self_mem_reachSet p v)⟩

theorem repIdx_eq_min' {rows cols : ℕ} (p : Cell rows cols → Bool)
    (v : Cell rows cols) :
    repIdx p v =
      ((reachSet p v).image cellIdx).min' (reachSet_nonempty_image p v) := by
  unfold repIdx
  rw [← Finset.coe_min' (reachSet_nonempty_image p v)]
  exact WithTop.untop'_coe 0 _

theorem repIdx_le {rows cols : ℕ} (p : Cell rows cols → Bool)
    {v w : Cell rows cols} (h : w ∈ reachSet p v) :
    repIdx p v ≤ cellIdx w := by
  rw [repIdx_eq_min' p v]
  exact Finset.min'_le _ _ (Finset.mem_image_of_mem cellIdx h)

theorem exists_rep_cell {rows cols : ℕ} (p : Cell rows cols → Bool)
    (v : Cell rows cols) :
    ∃ w : Cell rows cols, w ∈ reachSet p v ∧ cellIdx w = repIdx p v := by
  have := Finset.min'_mem ((reachSet p v).image cellIdx)
    (reachSet_nonempty_image p v)
  rw [Finset.mem_image] at this
  obtain ⟨w, hw, hidx⟩ := this
  exact ⟨w, hw, by rw [repIdx_eq_min' p v, hidx]⟩

theorem repIdx_eq_of_connected {rows cols : ℕ} (p : Cell rows cols → Bool)
    {u v : Cell rows cols} (h : Connected p u v) :
    repIdx p u = repIdx p v := by
  have key : ∀ a b : Cell rows cols, Connected p a b →
      repIdx p a ≤ repIdx p b := by
    intro a b hab
    obtain ⟨w, hw, hidx⟩ := exists_rep_cell p b
    have hbw : Connected p b w := (mem_reachSet_iff p b w).mp hw
    have haw : Connected p a w := hab.trans hbw
    have : w ∈ reachSet p a := mem_reachSet_of_connected p haw
    calc repIdx p a ≤ cellIdx w := repIdx_le p this
      _ = repIdx p b := hidx
  exact Nat.le_antisymm (key u v h) (key v u (connected_symm p h))

theorem repIdx_mem_reps {rows cols : ℕ} (p : Cell rows cols → Bool)
    {v : Cell rows cols} (hv : p v = true) : repIdx p v ∈ repsFinset p := by
  unfold repsFinset
  exact Finset.mem_image_of_mem (repIdx p)
    (Finset.mem_filter.mpr ⟨Finset.mem_univ v, hv⟩)

theorem card_filter_lt_strict {s : Finset ℕ} {a b : ℕ} (ha : a ∈ s)
    (hab : a < b) :
    (s.filter (fun x => x < a)).card < (s.filter (fun x => x < b)).card := by
  apply Finset.card_lt_card
  constructor
  · intro x hx
    rw [Finset.mem_filter] at hx ⊢
    exact ⟨hx.1, hx.2.trans hab⟩
  · intro hsub
    have : a ∈ s.filter (fun x => x < a) :=
      hsub (Finset.mem_filter.mpr ⟨ha, hab⟩)
    rw [Finset.mem_filter] at this
    omega

theorem card_filter_lt_inj {s : Finset ℕ} {a b : ℕ} (ha : a ∈ s) (hb : b ∈ s)
    (h : (s.filter (fun x => x < a)).card = (s.filter (fun x => x < b)).card) :
    a = b := by
  rcases Nat.lt_trichotomy a b with hlt | heq | hgt
  · have := card_filter_lt_strict ha hlt
    omega
  · exact heq
  · have := card_filter_lt_strict hb hgt
    omega

theorem labelOf_zero {rows cols : ℕ} (p : Cell rows cols → Bool)
    (v : Cell rows cols) (hv : p v = false) : labelOf p v = 0 := by
  unfold labelOf
  rw [if_neg]
  rw [hv]
  exact Bool.false_ne_true

theorem labelOf_range {rows cols : ℕ} (p : Cell rows cols → Bool)
    (v : Cell rows cols) (hv : p v = true) :
    1 ≤ labelOf p v ∧ labelOf p v ≤ nLabels p := by
  unfold labelOf
  rw [if_pos hv]
  refine ⟨Nat.le_add_right 1 _, ?_⟩
  unfold nLabels
  have hss : (repsFinset p).filter (fun x => x < repIdx p v) ⊂ repsFinset p := by
    constructor
    · exact Finset.filter_subset _ _
    · intro hsub
      have := hsub (repIdx_mem_reps p hv)
      rw [Finset.mem_filter] at this
      omega
  have := Finset.card_lt_card hss
  omega

theorem labelOf_eq_iff_connected {rows cols : ℕ} (p : Cell rows cols → Bool)
    (u v : Cell rows cols) (hu : p u = true) (hv : p v = true) :
    (labelOf p u = labelOf p v ↔ Connected p u v) := by
  constructor
  · intro h
    unfold labelOf at h
    rw [if_pos hu, if_pos hv] at h
    have hcard : ((repsFinset p).filter (fun x => x < repIdx p u)).card =
        ((repsFinset p).filter (fun x => x < repIdx p v)).card := by omega
    have hrep : repIdx p u = repIdx p v :=
      card_filter_lt_inj (repIdx_mem_reps p hu) (repIdx_mem_reps p hv) hcard
    obtain ⟨wu, hwu, hiwu⟩ := exists_rep_cell p u
    obtain ⟨wv, hwv, hiwv⟩ := exists_rep_cell p v
    have hww : wu = wv := cellIdx_injective wu wv (by rw [hiwu, hiwv, hrep])
    have h1 : Connected p u wu := (mem_reachSet_iff p u wu).mp hwu
    have h2 : Connected p v wv := (mem_reachSet_iff p v wv).mp hwv
    exact h1.trans (hww ▸ connected_symm p h2)
  · intro h
    unfold labelOf
    rw [if_pos hu, if_pos hv, repIdx_eq_of_connected p h]

theorem regionCard_label_eq_reach {rows cols : ℕ} (p : Cell rows cols → Bool)
    (v : Cell rows cols) (hv : p v = true) :
    regionCard p (labelOf p v) = (reachSet p v).card := by
  unfold regionCard
  congr 1
  ext u
  rw [Finset.mem_filter, mem_reachSet_iff]
  constructor
  · rintro ⟨-, hl⟩
    by_cases hu : p u = true
    · exact connected_symm p ((labelOf_eq_iff_connected p u v hu hv).mp hl)
    · rw [labelOf_zero p u (Bool.not_eq_true _ |>.mp hu)] at hl
      have := labelOf_range p v hv
      omega
  · intro h
    have hu : p u = true := p_of_connected p h hv
    exact ⟨Finset.mem_univ u,
      (labelOf_eq_iff_connected p u v hu hv).mpr (connected_symm p h)⟩

theorem sizeFilter_spec {rows cols : ℕ} (p : Cell rows cols → Bool)
    (minPix : ℤ) (v : Cell rows cols) :
    sizeFilter p minPix v = true ↔
      p v = true ∧ minPix ≤ ((reachSet p v).card : ℤ) := by
  unfold sizeFilter
  by_cases hv : p v = true
  · have hr := labelOf_range p v hv
    rw [regionCard_label_eq_reach p v hv]
    simp only [Bool.and_eq_true, decide_eq_true_eq]
    constructor
    · rintro ⟨-, hcard⟩
      exact ⟨hv, hcard⟩
    · rintro ⟨-, hcard⟩
      exact ⟨⟨hr.1, hr.2⟩, hcard⟩
  · have hz : labelOf p v = 0 :=
      labelOf_zero p v (Bool.not_eq_true _ |>.mp hv)
    rw [hz]
    simp [hv]

/-- C1 counterexample: `ndi.label` is called with its default structuring
element, which is 4-connectivity, so the mask with exactly two
diagonally-touching pixels yields two regions with distinct labels — not
the single region the 8-connectivity claim requires. -/
theorem C1_counterexample :
    nLabels diagMask = 2 ∧
      labelOf diagMask ((0 : Fin 2), (0 : Fin 2)) ≠
        labelOf diagMask ((1 : Fin 2), (1 : Fin 2)) := by
  constructor <;> decide

/-- C1 (amended): the Region Labeler partitions the 1-valued cells into
maximal regions under 4-connectivity (edge adjacency only; diagonal
touching does not connect) with unique positive labels `1..n`, 0-valued
cells keeping label 0: labels are positive and bounded by the region
count on foreground cells, and two foreground cells share a label exactly
when a chain of edge adjacencies links them; in particular a mask with
exactly two diagonally-touching pixels has exactly two regions. -/
theorem C1_labeler_partitions_4conn {rows cols : ℕ}
    (p : Cell rows cols → Bool) :
    (∀ v, p v = false → labelOf p v = 0) ∧
    (∀ v, p v = true → 1 ≤ labelOf p v ∧ labelOf p v ≤ nLabels p) ∧
    (∀ u v, p u = true → p v = true →
      (labelOf p u = labelOf p v ↔ Connected p u v)) ∧
    nLabels diagMask = 2 :=
  ⟨labelOf_zero p, labelOf_range p, labelOf_eq_iff_connected p, by decide⟩

/-- Witness for `C1_labeler_partitions_4conn` on the diagonal mask. -/
theorem C1_labeler_partitions_4conn_witness :
    diagMask ((0 : Fin 2), (1 : Fin 2)) = false ∧
      labelOf diagMask ((0 : Fin 2), (1 : Fin 2)) = 0 ∧
      diagMask ((0 : Fin 2), (0 : Fin 2)) = true ∧
      1 ≤ labelOf diagMask ((0 : Fin 2), (0 : Fin 2)) :=
  ⟨by decide,
   (C1_labeler_partitions_4conn diagMask).1 _ (by decide),
   by decide,
   ((C1_labeler_partitions_4conn diagMask).2.1 _ (by decide)).1⟩

/-- C2 counterexample: with 100 m² pixels and `min_area_ha = 0.055` the
spec's minimum pixel count is `ceil(5.5) = 6`, but the code computes
`int(5.5) = 5`, and a 5-pixel region — strictly below the claimed
minimum — is retained at 1 instead of being zeroed. -/
theorem C2_counterexample :
    minPixels tEx (11 / 200) = 5 ∧
      minPixelsCeil tEx (11 / 200) = 6 ∧
      ((reachSet rowMask ((0 : Fin 1), (0 : Fin 5))).card : ℤ) = 5 ∧
      sizeFilter rowMask (minPixels tEx (11 / 200))
        ((0 : Fin 1), (0 : Fin 5)) = true := by
  have hpa : pixelArea tEx = 100 := by
    show |(10 : ℚ)| * |(-10 : ℚ)| = 100
    rw [abs_of_pos (by norm_num : (0 : ℚ) < 10),
      abs_of_neg (by norm_num : (-10 : ℚ) < 0)]
    norm_num
  have hq : (11 / 200 : ℚ) * 10000 / pixelArea tEx = 11 / 2 := by
    rw [hpa]
    norm_num
  have hmp : minPixels tEx (11 / 200) = 5 := by
    unfold minPixels pyInt
    rw [hq, if_pos (by norm_num : (0 : ℚ) ≤ 11 / 2), Int.floor_eq_iff]
    norm_num
  have hmc : minPixelsCeil tEx (11 / 200) = 6 := by
    unfold minPixelsCeil
    rw [hq, Int.ceil_eq_iff]
    norm_num
  refine ⟨hmp, hmc, by decide, ?_⟩
  rw [hmp]
  decide

/-- C2 (amended): the per-cell pixel area is `|a| * |e|` from the affine
transform and the minimum pixel count is the `int()` truncation (not the
ceiling) of `min_area_ha * 10000 / pixel_area_m2`; the Region Size Filter
keeps a cell at 1 iff it is foreground and its region's pixel count is at
least that truncated minimum, zeroing every smaller region. -/
theorem C2_size_filter_trunc {rows cols : ℕ} (p : Cell rows cols → Bool)
    (t : Affine) (minAreaHa : ℚ) (v : Cell rows cols) :
    (minPixels t minAreaHa = pyInt (minAreaHa * 10000 / (|t.a| * |t.e|))) ∧
    (sizeFilter p (minPixels t minAreaHa) v = true ↔
      p v = true ∧ minPixels t minAreaHa ≤ ((reachSet p v).card : ℤ)) :=
  ⟨rfl, sizeFilter_spec p (minPixels t minAreaHa) v⟩

theorem areaFilter_some (gs : List Geom) (al0 : List ℚ) (c : ℕ)
    (minA maxA : ℚ) :
    areaFilter ⟨gs, some al0, c⟩ minA maxA =
      { geoms := ((gs.zip al0).filter
          (fun ga => decide (minA ≤ ga.2) && decide (ga.2 ≤ maxA))).map
            Prod.fst,
        areaHa := some (((gs.zip al0).filter
          (fun ga => decide (minA ≤ ga.2) && decide (ga.2 ≤ maxA))).map
            Prod.snd),
        crs := c } := rfl

theorem computeAreaHa_some (L : GeoLib) (gdf : GeoDF) :
    ∃ al : List ℚ, (computeAreaHa L gdf).areaHa = some al := by
  unfold computeAreaHa
  by_cases h1 : gdf.geoms.isEmpty = true
  · rw [if_pos h1]
    exact ⟨[], rfl⟩
  · rw [if_neg h1]
    by_cases h2 : L.isGeo gdf.crs = true
    · rw [if_pos h2]
      exact ⟨_, rfl⟩
    · rw [if_neg h2]
      exact ⟨_, rfl⟩

theorem mem_areaFilter_bounds (gdf : GeoDF) (minA maxA : ℚ)
    (al0 al : List ℚ) (h0 : gdf.areaHa = some al0)
    (h : (areaFilter gdf minA maxA).areaHa = some al)
    (a : ℚ) (ha : a ∈ al) : minA ≤ a ∧ a ≤ maxA := by
  obtain ⟨gs, aha, c⟩ := gdf
  have h0x : aha = some al0 := h0
  subst h0x
  rw [areaFilter_some] at h
  have hx : ((gs.zip al0).filter
      (fun ga => decide (minA ≤ ga.2) && decide (ga.2 ≤ maxA))).map
        Prod.snd = al := by
    injection h
  rw [← hx] at ha
  rw [List.mem_map] at ha
  obtain ⟨ga, hga, hsnd⟩ := ha
  rw [List.mem_filter] at hga
  have := hga.2
  rw [Bool.and_eq_true, decide_eq_true_eq, decide_eq_true_eq] at this
  rw [← hsnd]
  exact this

theorem areaFilter_retains (gs : List Geom) (al0 : List ℚ) (c : ℕ)
    (minA maxA : ℚ) (g : Geom) (a : ℚ) (hmem : (g, a) ∈ gs.zip al0)
    (h1 : minA ≤ a) (h2 : a ≤ maxA) :
    g ∈ (areaFilter ⟨gs, some al0, c⟩ minA maxA).geoms := by
  rw [areaFilter_some]
  dsimp only
  rw [List.mem_map]
  refine ⟨(g, a), ?_, rfl⟩
  rw [List.mem_filter]
  refine ⟨hmem, ?_⟩
  rw [Bool.and_eq_true, decide_eq_true_eq, decide_eq_true_eq]
  exact ⟨h1, h2⟩

theorem repsFinset_eq_empty {rows cols : ℕ} (p : Cell rows cols → Bool)
    (hp : ∀ v, p v = false) : repsFinset p = ∅ := by
  unfold repsFinset
  have hf : (Finset.univ.filter (fun v => p v = true) :
      Finset (Cell rows cols)) = ∅ := by
    apply Finset.filter_eq_empty_iff.mpr
    intro v _
    rw [hp v]
    exact Bool.false_ne_true
  rw [hf, Finset.image_empty]

theorem rasterToPolygons_of_no_foreground {rows cols : ℕ}
    (p : Cell rows cols → Bool) (crs : ℕ) (hp : ∀ v, p v = false) :
    rasterToPolygons p crs = { geoms := [], areaHa := none, crs := crs } := by
  unfold rasterToPolygons repsSorted
  rw [repsFinset_eq_empty p hp]
  have hnil : (List.range (rows * cols)).filter
      (fun i => decide (i ∈ (∅ : Finset ℕ))) = [] := by
    rw [List.filter_eq_nil_iff]
    intro i _
    simp
  rw [hnil]
  rfl

theorem computeAreaHa_of_empty (L : GeoLib) (gdf : GeoDF)
    (h : gdf.geoms = []) :
    computeAreaHa L gdf = { gdf with areaHa := some [] } := by
  unfold computeAreaHa
  rw [if_pos]
  rw [h]
  rfl

theorem dilate_of_all_false (rows cols rad : ℕ) (m : Mask)
    (hm : ∀ r c, m r c = false) :
    ∀ r c, dilate rows cols rad m r c = false := by
  intro r c
  apply Bool.eq_false_iff.mpr
  intro hc
  unfold dilate at hc
  rw [Bool.and_eq_true, List.any_eq_true] at hc
  obtain ⟨-, d, -, hd⟩ := hc
  rw [hm] at hd
  exact Bool.false_ne_true hd

theorem erode_of_all_false (rows cols rad : ℕ) (m : Mask)
    (hm : ∀ r c, m r c = false) :
    ∀ r c, erode rows cols rad m r c = false := by
  intro r c
  apply Bool.eq_false_iff.mpr
  intro hc
  unfold erode at hc
  rw [Bool.and_eq_true, List.all_eq_true] at hc
  have := hc.2 (0, 0) (zero_mem_diskOffsets rad)
  rw [hm] at this
  exact Bool.false_ne_true this

theorem applyOpen_of_all_false (rows cols rad : ℕ) (m : Mask)
    (hm : ∀ r c, m r c = false) :
    ∀ r c, applyOpen rows cols rad m r c = false := by
  intro r c
  unfold applyOpen
  split
  · exact dilate_of_all_false rows cols rad _
      (erode_of_all_false rows cols rad m hm) r c
  · exact hm r c

theorem applyClose_of_all_false (rows cols rad : ℕ) (m : Mask)
    (hm : ∀ r c, m r c = false) :
    ∀ r c, applyClose rows cols rad m r c = false := by
  intro r c
  unfold applyClose
  split
  · exact erode_of_all_false rows cols rad _
      (dilate_of_all_false rows cols rad m hm) r c
  · exact hm r c

theorem binaryMorphology_of_all_false (rows cols oR cR : ℕ) (m : Mask)
    (hm : ∀ r c, m r c = false) :
    ∀ r c, binaryMorphology rows cols oR cR m r c = false := by
  unfold binaryMorphology
  exact applyClose_of_all_false rows cols cR _
    (applyOpen_of_all_false rows cols oR m hm)

theorem pipelineFromMask_of_all_false (rows cols : ℕ) (m : Mask) (t : Affine)
    (crs oR cR : ℕ) (minA maxA : ℚ) (L : GeoLib)
    (hm : ∀ r c, m r c = false) :
    pipelineFromMask rows cols m t crs oR cR minA maxA L = none := by
  have hfilt : ∀ v : Cell rows cols,
      sizeFilter (maskOn rows cols (binaryMorphology rows cols oR cR m))
        (minPixels t minA) v = false := by
    intro v
    apply Bool.eq_false_iff.mpr
    intro hc
    rw [sizeFilter_spec] at hc
    have hz : maskOn rows cols (binaryMorphology rows cols oR cR m) v =
        false := binaryMorphology_of_all_false rows cols oR cR m hm _ _
    rw [hz] at hc
    exact Bool.false_ne_true hc.1
  simp only [pipelineFromMask]
  rw [rasterToPolygons_of_no_foreground _ crs hfilt]
  rfl

theorem areaFilter_geoms_nil_of_inverted (gdf : GeoDF) (minA maxA : ℚ)
    (al0 : List ℚ) (h0 : gdf.areaHa = some al0) (h : maxA < minA) :
    (areaFilter gdf minA maxA).geoms = [] := by
  obtain ⟨gs, aha, c⟩ := gdf
  have h0x : aha = some al0 := h0
  subst h0x
  rw [areaFilter_some]
  dsimp only
  rw [List.map_eq_nil_iff]
  rw [List.filter_eq_nil_iff]
  intro ga _
  rw [Bool.and_eq_true, decide_eq_true_eq, decide_eq_true_eq]
  rintro ⟨hA, hB⟩
  linarith

theorem pipelineFromMask_none_of_inverted (rows cols : ℕ) (m : Mask)
    (t : Affine) (crs oR cR : ℕ) (minA maxA : ℚ) (L : GeoLib)
    (h : maxA < minA) :
    pipelineFromMask rows cols m t crs oR cR minA maxA L = none := by
  simp only [pipelineFromMask]
  obtain ⟨al0, hal0⟩ := computeAreaHa_some L
    (rasterToPolygons
      (sizeFilter (maskOn rows cols (binaryMorphology rows cols oR cR m))
        (minPixels t minA)) crs)
  have hnil := areaFilter_geoms_nil_of_inverted _ minA maxA al0 hal0 h
  rw [if_pos]
  rw [hnil]
  rfl

theorem maskBuilder_of_inverted (rows cols : ℕ) (arr : Raster) (lo hi : ℚ)
    (h : hi < lo) : ∀ r c, maskBuilder rows cols arr lo hi r c = false := by
  intro r c
  unfold maskBuilder
  cases harr : arr r c with
  | finite q =>
      simp only [FVal.ge, FVal.le]
      by_cases h1 : lo ≤ q
      · by_cases h2 : q ≤ hi
        · exact absurd (h1.trans h2) (not_le.mpr h)
        · simp [h2]
      · simp [h1]
  | nan => simp [FVal.ge]
  | pinf => simp [FVal.le]
  | ninf => simp [FVal.ge]

theorem pipeline_bounds (rows cols : ℕ) (m : Mask) (t : Affine)
    (crs oR cR : ℕ) (minA maxA : ℚ) (L : GeoLib) (gdf : GeoDF)
    (al : List ℚ) (a : ℚ)
    (h : pipelineFromMask rows cols m t crs oR cR minA maxA L = some gdf)
    (hal : gdf.areaHa = some al) (ha : a ∈ al) : minA ≤ a ∧ a ≤ maxA := by
  simp only [pipelineFromMask] at h
  split at h
  · exact Option.noConfusion h
  · have hg : areaFilter (computeAreaHa L (rasterToPolygons
        (sizeFilter (maskOn rows cols (binaryMorphology rows cols oR cR m))
          (minPixels t minA)) crs)) minA maxA = gdf := by
      injection h
    obtain ⟨al0, hal0⟩ := computeAreaHa_some L (rasterToPolygons
      (sizeFilter (maskOn rows cols (binaryMorphology rows cols oR cR m))
        (minPixels t minA)) crs)
    rw [← hg] at hal
    exact mem_areaFilter_bounds _ minA maxA al0 al hal0 hal a ha

theorem minPixels_tBig_one : minPixels tBig 1 = 1 := by
  have hpa : pixelArea tBig = 10000 := by
    show |(100 : ℚ)| * |(-100 : ℚ)| = 10000
    rw [abs_of_pos (by norm_num : (0 : ℚ) < 100),
      abs_of_neg (by norm_num : (-100 : ℚ) < 0)]
    norm_num
  unfold minPixels pyInt
  rw [hpa]
  rw [if_pos (by norm_num : (0 : ℚ) ≤ 1 * 10000 / 10000)]
  have hq : (1 : ℚ) * 10000 / 10000 = 1 := by norm_num
  rw [hq]
  exact Int.floor_one

theorem processIndex_run_concrete :
    processIndex 1 1 (fun _ _ => FVal.finite 1) 0 2 tBig 32633 0 0 1 1
      constLib =
      some (⟨[[0]], some [(10000 : ℚ) / 10000], 32633⟩ : GeoDF) := by
  show pipelineFromMask 1 1 (maskBuilder 1 1 (fun _ _ => FVal.finite 1) 0 2)
    tBig 32633 0 0 1 1 constLib = _
  simp only [pipelineFromMask, minPixels_tBig_one]
  have h2 : rasterToPolygons (sizeFilter (maskOn 1 1 (binaryMorphology 1 1 0 0
      (maskBuilder 1 1 (fun _ _ => FVal.finite 1) 0 2))) (1 : ℤ)) 32633 =
      (⟨[[0]], none, 32633⟩ : GeoDF) := by decide
  rw [h2]
  have h3 : computeAreaHa constLib (⟨[[0]], none, 32633⟩ : GeoDF) =
      (⟨[[0]], some [(10000 : ℚ) / 10000], 32633⟩ : GeoDF) := rfl
  rw [h3]
  have hc : ((10000 : ℚ) / 10000) = 1 := by norm_num
  have h4 : areaFilter (⟨[[0]], some [(10000 : ℚ) / 10000], 32633⟩ : GeoDF)
      1 1 = (⟨[[0]], some [(10000 : ℚ) / 10000], 32633⟩ : GeoDF) := by
    rw [areaFilter_some]
    simp [hc]
  rw [h4]
  rfl

/-- C3 (amended): the code performs no configuration validation and no
ConfigurationError exists; in particular with
`max_area_ha < min_area_ha` the run does not fail — the area-range
filter is unsatisfiable, so the pipeline (per-layer and combined alike)
returns the normal empty-result sentinel. -/
theorem C3_inverted_bounds_sentinel (rows cols : ℕ) (m : Mask) (t : Affine)
    (crs oR cR : ℕ) (minA maxA : ℚ) (L : GeoLib) (h : maxA < minA) :
    pipelineFromMask rows cols m t crs oR cR minA maxA L = none :=
  pipelineFromMask_none_of_inverted rows cols m t crs oR cR minA maxA L h

/-- Witness for `C3_inverted_bounds_sentinel`. -/
theorem C3_inverted_bounds_sentinel_witness :
    (1 / 2 : ℚ) < 1 ∧
      pipelineFromMask 1 1 oneCellMask tBig 32633 0 0 1 (1 / 2) constLib =
        none :=
  ⟨by norm_num,
   C3_inverted_bounds_sentinel 1 1 oneCellMask tBig 32633 0 0 1 (1 / 2)
     constLib (by norm_num)⟩

/-- C3 counterexample: with `max_area_ha < min_area_ha` — a configuration
the claim says must fail with a ConfigurationError —
`process_index_to_vectors` on a layer that otherwise produces a
qualifying region completes normally and returns the empty-result
sentinel `None`: no validation or dedicated exception exists in the
code. -/
theorem C3_counterexample :
    processIndex 1 1 (fun _ _ => FVal.finite 1) 0 2 tBig 32633 0 0 1 (1 / 2)
      constLib = none :=
  pipelineFromMask_none_of_inverted 1 1
    (maskBuilder 1 1 (fun _ _ => FVal.finite 1) 0 2) tBig 32633 0 0 1 (1 / 2)
    constLib (by norm_num)

/-- C6 (confirmed): every feature surviving to a final per-layer or
combined Feature Set has `area_ha` inside the closed interval
`[min_area_ha, max_area_ha]`, and a feature whose `area_ha` equals
`min_area_ha` exactly is retained by the filter (inclusive boundary)
whenever the interval is nonempty. -/
theorem C6_area_range_invariant (rows cols : ℕ) (arr ndvi gndvi evi2 : Raster)
    (lo hi nLo nHi gLo gHi eLo eHi : ℚ) (t : Affine) (crs oR cR : ℕ)
    (minA maxA : ℚ) (L : GeoLib) (gdf gdfc : GeoDF) (al alc : List ℚ)
    (a b : ℚ) (gs : List Geom) (al0 : List ℚ) (c : ℕ) (g : Geom) :
    (processIndex rows cols arr lo hi t crs oR cR minA maxA L = some gdf →
      gdf.areaHa = some al → a ∈ al → minA ≤ a ∧ a ≤ maxA) ∧
    (processCombined rows cols ndvi gndvi evi2 nLo nHi gLo gHi eLo eHi t crs
        oR cR minA maxA L = some gdfc →
      gdfc.areaHa = some alc → b ∈ alc → minA ≤ b ∧ b ≤ maxA) ∧
    ((g, minA) ∈ gs.zip al0 → minA ≤ maxA →
      g ∈ (areaFilter ⟨gs, some al0, c⟩ minA maxA).geoms) := by
  refine ⟨?_, ?_, ?_⟩
  · intro h hal ha
    exact pipeline_bounds rows cols _ t crs oR cR minA maxA L gdf al a h hal
      ha
  · intro h hal hb
    exact pipeline_bounds rows cols _ t crs oR cR minA maxA L gdfc alc b h
      hal hb
  · intro hmem hle
    exact areaFilter_retains gs al0 c minA maxA g minA hmem le_rfl hle

/-- Witness for `C6_area_range_invariant`: a 1 × 1 layer whose single
1-ha region survives to the final set with `area_ha` exactly at the
(meeting) bounds, and a one-row frame whose feature at exactly
`min_area_ha` is retained. -/
theorem C6_area_range_invariant_witness :
    ((1 : ℚ) ≤ (10000 : ℚ) / 10000 ∧ (10000 : ℚ) / 10000 ≤ 1) ∧
      [(0 : ℕ)] ∈ (areaFilter ⟨[[0]], some [(1 : ℚ)], 32633⟩ 1 1).geoms := by
  constructor
  · exact (C6_area_range_invariant 1 1 (fun _ _ => FVal.finite 1)
      (fun _ _ => FVal.nan) (fun _ _ => FVal.nan) (fun _ _ => FVal.nan)
      0 2 0 0 0 0 0 0 tBig 32633 0 0 1 1 constLib
      ⟨[[0]], some [(10000 : ℚ) / 10000], 32633⟩
      ⟨[], none, 0⟩ [(10000 : ℚ) / 10000] [] ((10000 : ℚ) / 10000) 0
      [[0]] [(1 : ℚ)] 32633 [0]).1
      processIndex_run_concrete rfl (List.mem_singleton.mpr rfl)
  · exact (C6_area_range_invariant 1 1 (fun _ _ => FVal.finite 1)
      (fun _ _ => FVal.nan) (fun _ _ => FVal.nan) (fun _ _ => FVal.nan)
      0 2 0 0 0 0 0 0 tBig 32633 0 0 1 1 constLib
      ⟨[[0]], some [(10000 : ℚ) / 10000], 32633⟩
      ⟨[], none, 0⟩ [(10000 : ℚ) / 10000] [] ((10000 : ℚ) / 10000) 0
      [[0]] [(1 : ℚ)] 32633 [0]).2.2
      (List.mem_singleton.mpr rfl) le_rfl

/-- C7 (confirmed): empty results propagate without failure — the
Vectorizer on a mask with no 1-valued cells returns the empty Feature Set
carrying the CRS, the Area Calculator on an empty Feature Set returns it
with an empty `area_ha` column defined, and the Layer Processor returns
the `None` sentinel. -/
theorem C7_empty_propagation {rows cols : ℕ} (p : Cell rows cols → Bool)
    (crs : ℕ) (L : GeoLib) (gdf : GeoDF) (m : Mask) (t : Affine)
    (oR cR : ℕ) (minA maxA : ℚ) :
    ((∀ v, p v = false) →
      rasterToPolygons p crs = { geoms := [], areaHa := none, crs := crs }) ∧
    (gdf.geoms = [] → computeAreaHa L gdf = { gdf with areaHa := some [] }) ∧
    ((∀ r c, m r c = false) →
      pipelineFromMask rows cols m t crs oR cR minA maxA L = none) :=
  ⟨rasterToPolygons_of_no_foreground p crs,
   computeAreaHa_of_empty L gdf,
   pipelineFromMask_of_all_false rows cols m t crs oR cR minA maxA L⟩

/-- Witness for `C7_empty_propagation` on an all-background 1 × 1 grid. -/
theorem C7_empty_propagation_witness :
    rasterToPolygons (fun _ : Cell 1 1 => false) 4326 =
        (⟨[], none, 4326⟩ : GeoDF) ∧
      computeAreaHa constLib ⟨[], none, 4326⟩ =
        (⟨[], some [], 4326⟩ : GeoDF) ∧
      pipelineFromMask 1 1 (fun _ _ => false) tBig 4326 1 1 1 2 constLib =
        none :=
  ⟨(C7_empty_propagation (fun _ : Cell 1 1 => false) 4326 constLib
      ⟨[], none, 4326⟩ (fun _ _ => false) tBig 1 1 1 2).1 (fun _ => rfl),
   (C7_empty_propagation (fun _ : Cell 1 1 => false) 4326 constLib
      ⟨[], none, 4326⟩ (fun _ _ => false) tBig 1 1 1 2).2.1 rfl,
   (C7_empty_propagation (fun _ : Cell 1 1 => false) 4326 constLib
      ⟨[], none, 4326⟩ (fun _ _ => false) tBig 1 1 1 2).2.2
     (fun _ _ => rfl)⟩

/-- C9 (confirmed): the Area Calculator leaves every geometry and the CRS
unchanged in its output; when the CRS is geographic and the frame is
nonempty, only a working copy of the geometries is reprojected to the
estimated UTM zone, and each `area_ha` is the projected polygon's area
divided by 10000. -/
theorem C9_area_calc_frame (L : GeoLib) (gdf : GeoDF) :
    (computeAreaHa L gdf).geoms = gdf.geoms ∧
    (computeAreaHa L gdf).crs = gdf.crs ∧
    (gdf.geoms ≠ [] → L.isGeo gdf.crs = true →
      (computeAreaHa L gdf).areaHa =
        some ((gdf.geoms.map (L.toCrs (L.estUtm gdf))).map
          (fun g => L.areaOf (L.estUtm gdf) g / 10000))) := by
  by_cases h1 : gdf.geoms.isEmpty = true
  · unfold computeAreaHa
    rw [if_pos h1]
    refine ⟨rfl, rfl, ?_⟩
    intro hne _
    exact absurd (List.isEmpty_iff.mp h1) hne
  · unfold computeAreaHa
    rw [if_neg h1]
    by_cases h2 : L.isGeo gdf.crs = true
    · rw [if_pos h2]
      exact ⟨rfl, rfl, fun _ _ => rfl⟩
    · rw [if_neg h2]
      refine ⟨rfl, rfl, ?_⟩
      intro _ hgeo
      exact absurd hgeo h2

/-- Witness for `C9_area_calc_frame`: a nonempty geographic frame whose
reprojection visibly rewrites the working copy while the output keeps
the original geometry. -/
theorem C9_area_calc_frame_witness :
    (computeAreaHa geoLib ⟨[[3]], none, 4326⟩).geoms = [[3]] ∧
      (computeAreaHa geoLib ⟨[[3]], none, 4326⟩).crs = 4326 ∧
      (computeAreaHa geoLib ⟨[[3]], none, 4326⟩).areaHa =
        some (([[(3 : ℕ)]].map
          (geoLib.toCrs (geoLib.estUtm ⟨[[3]], none, 4326⟩))).map
          (fun g => geoLib.areaOf (geoLib.estUtm ⟨[[3]], none, 4326⟩) g /
            10000)) :=
  ⟨(C9_area_calc_frame geoLib ⟨[[3]], none, 4326⟩).1,
   (C9_area_calc_frame geoLib ⟨[[3]], none, 4326⟩).2.1,
   (C9_area_calc_frame geoLib ⟨[[3]], none, 4326⟩).2.2 (by decide) rfl⟩

/-- C10 (confirmed): an inverted threshold range (`lo > hi`) raises no
error and is not rejected as a configuration error: the Mask Builder
returns the all-zero mask, and the layer run yields the empty-result
sentinel. -/
theorem C10_inverted_range_empty (rows cols : ℕ) (arr : Raster) (lo hi : ℚ)
    (t : Affine) (crs oR cR : ℕ) (minA maxA : ℚ) (L : GeoLib)
    (h : hi < lo) :
    (∀ r c, maskBuilder rows cols arr lo hi r c = false) ∧
    processIndex rows cols arr lo hi t crs oR cR minA maxA L = none :=
  ⟨maskBuilder_of_inverted rows cols arr lo hi h,
   pipelineFromMask_of_all_false rows cols
     (maskBuilder rows cols arr lo hi) t crs oR cR minA maxA L
     (maskBuilder_of_inverted rows cols arr lo hi h)⟩

/-- Witness for `C10_inverted_range_empty` with range `[1, 0]`. -/
theorem C10_inverted_range_empty_witness :
    (0 : ℚ) < 1 ∧
      maskBuilder 1 1 (fun _ _ => FVal.finite 0) 1 0 0 0 = false ∧
      processIndex 1 1 (fun _ _ => FVal.finite 0) 1 0 tBig 32633 1 1 1 2
        constLib = none :=
  ⟨by norm_num,
   (C10_inverted_range_empty 1 1 (fun _ _ => FVal.finite 0) 1 0 tBig 32633
     1 1 1 2 constLib (by norm_num)).1 0 0,
   (C10_inverted_range_empty 1 1 (fun _ _ => FVal.finite 0) 1 0 tBig 32633
     1 1 1 2 constLib (by norm_num)).2⟩

end PalmTree
